import Mathlib

/-!
Verification of the bounded worker-thread pool specification against the
repository's code.  The pool's reference usage (`chapter-20/hello/src/main.rs`)
is embedded from the source; the `ThreadPool` library itself (the `hello`
crate's `lib.rs`) is not present in the sources, so the pool, its workers and
its job queue are modelled from the specification's words, as an explicit
state machine with a small-step transition relation.
-/

namespace RustBook

/-- Modelled from the spec: the error taxonomy of §7 — `InvalidPoolSize` is the
construction-time error for a zero-size pool, `PoolClosed` the error `submit`
returns once teardown has begun.  The `ThreadPool` library's own source is
missing from the repository. -/
inductive PoolError where
  | InvalidPoolSize
  | PoolClosed
deriving DecidableEq, Repr

/-- Modelled from the spec: the status of a Worker's thread.  `running` covers
the Idle/Waiting and Executing states of §4.2; `terminated` is reached when a
receive observes closed-and-empty; `crashed` records an unhandled panic inside
a job (§4.2 failure semantics). -/
inductive WStatus where
  | running
  | terminated
  | crashed
deriving DecidableEq, Repr

/-- Modelled from the spec: a Worker owns an ordinal index (its position in the
pool's worker list), the job it is currently executing (`job?`, at most one at
a time — a worker never interleaves two jobs), the list `done` of jobs it has
executed to completion in order, and its thread status. -/
structure Worker where
  job? : Option Nat
  done : List Nat
  status : WStatus
deriving DecidableEq, Repr

/-- Modelled from the spec: the whole Pool state — `size` is the construction
parameter N, `workers` the fixed collection of Workers (index = ordinal),
`queue` the FIFO JobQueue contents (job ids), `closed` whether the producer
side of the queue has been closed (teardown begun), `submitted` the ids of all
successfully enqueued jobs in submission order, `delivered` the log of
(worker index, job id) hand-offs in delivery order, and `joined` the number of
Worker threads teardown has already joined (joins proceed in worker-index
order, so the joined workers are exactly the indices below `joined`). -/
structure PoolState where
  size : Nat
  workers : List Worker
  queue : List Nat
  closed : Bool
  submitted : List Nat
  delivered : List (Nat × Nat)
  joined : Nat
deriving DecidableEq, Repr

/-- A freshly spawned Worker: idle, nothing executed, thread running. -/
def idleWorker : Worker := ⟨none, [], WStatus.running⟩

/-- Modelled from the spec: the Pool state right after `new n` succeeds —
exactly `n` idle workers, empty queue, producer side open, nothing submitted. -/
def initState (n : Nat) : PoolState :=
  { size := n
    workers := List.replicate n idleWorker
    queue := []
    closed := false
    submitted := []
    delivered := []
    joined := 0 }

/-- Modelled from the spec: `ThreadPool::new(size)` — fails with
`InvalidPoolSize` when `size = 0` (spawning no workers), otherwise spawns
exactly `n` workers sharing the queue. -/
def ThreadPool.new (n : Nat) : Except PoolError PoolState :=
  if n = 0 then Except.error PoolError.InvalidPoolSize else Except.ok (initState n)

/-- Enqueue one job: the fresh job id is the number of jobs submitted so far,
so `submitted` is always `[0, 1, ..., k-1]` in submission order. -/
def submitJob (s : PoolState) : PoolState :=
  { s with
    queue := s.queue ++ [s.submitted.length]
    submitted := s.submitted ++ [s.submitted.length] }

/-- Modelled from the spec: `Pool.submit` / `ThreadPool::execute` — if the
queue's receiving side is closed (teardown begun) it returns the `PoolClosed`
error as an ordinary value, leaving the state untouched; otherwise it places
the job on the queue and returns immediately. -/
def ThreadPool.execute (s : PoolState) : Except PoolError PoolState :=
  if s.closed then Except.error PoolError.PoolClosed else Except.ok (submitJob s)

/-- The possible outcomes of a `receive` call on the JobQueue. -/
inductive ReceiveResult where
  | job (j : Nat) (rest : List Nat)
  | closedEmpty
  | wouldBlock
deriving DecidableEq, Repr

/-- Modelled from the spec: `JobQueue.receive()` — if a job is available it is
returned immediately (front of the FIFO); if the sending side is closed and no
jobs remain it returns the distinguishable end-of-stream signal `closedEmpty`;
only when the queue is empty but still open does the caller block
(`wouldBlock`). -/
def JobQueue.receive (queue : List Nat) (senderClosed : Bool) : ReceiveResult :=
  match queue with
  | j :: rest => ReceiveResult.job j rest
  | [] => if senderClosed then ReceiveResult.closedEmpty else ReceiveResult.wouldBlock

/-- Replace worker `w` of the pool (all other state unchanged). -/
def setWorker (s : PoolState) (w : Nat) (v : Worker) : PoolState :=
  { s with workers := s.workers.set w v }

/-- Modelled from the spec: the small-step transition relation of the pool.
`submit` enqueues while the queue is open; `dequeue` hands the front job to an
idle running worker (via `JobQueue.receive`); `finish` completes the worker's
current job; `crash` is an unhandled panic inside the current job, which
terminates only that worker's thread; `close` closes the producer side
(teardown begins); `terminate` lets an idle worker whose receive observes
closed-and-empty exit its loop; `join` is teardown joining the next worker in
worker-index order (worker `joined`), possible only after closing and once
that worker's thread has stopped. -/
inductive Step : PoolState → PoolState → Prop where
  | submit {s : PoolState} (h : s.closed = false) : Step s (submitJob s)
  | dequeue {s : PoolState} (w j : Nat) (rest d : List Nat)
      (hw : s.workers[w]? = some ⟨none, d, WStatus.running⟩)
      (hq : JobQueue.receive s.queue s.closed = ReceiveResult.job j rest) :
      Step s { setWorker s w ⟨some j, d, WStatus.running⟩ with
               queue := rest
               delivered := s.delivered ++ [(w, j)] }
  | finish {s : PoolState} (w j : Nat) (d : List Nat)
      (hw : s.workers[w]? = some ⟨some j, d, WStatus.running⟩) :
      Step s (setWorker s w ⟨none, d ++ [j], WStatus.running⟩)
  | crash {s : PoolState} (w j : Nat) (d : List Nat)
      (hw : s.workers[w]? = some ⟨some j, d, WStatus.running⟩) :
      Step s (setWorker s w ⟨some j, d, WStatus.crashed⟩)
  | close {s : PoolState} (h : s.closed = false) : Step s { s with closed := true }
  | terminate {s : PoolState} (w : Nat) (d : List Nat)
      (hw : s.workers[w]? = some ⟨none, d, WStatus.running⟩)
      (hq : JobQueue.receive s.queue s.closed = ReceiveResult.closedEmpty) :
      Step s (setWorker s w ⟨none, d, WStatus.terminated⟩)
  | join {s : PoolState}
      (hc : s.closed = true)
      (hj : s.joined < s.size)
      (hw : (s.workers[s.joined]?).map Worker.status = some WStatus.terminated ∨
            (s.workers[s.joined]?).map Worker.status = some WStatus.crashed) :
      Step s { s with joined := s.joined + 1 }

/-- The pool states reachable from a successful construction. -/
inductive Reachable : PoolState → Prop where
  | init (n : Nat) (h : 1 ≤ n) : Reachable (initState n)
  | step {s s' : PoolState} (hr : Reachable s) (hs : Step s s') : Reachable s'

/-- The job ids delivered to workers, in delivery order. -/
def deliveredIds (s : PoolState) : List Nat := s.delivered.map Prod.snd

/-- The job ids delivered to worker `w`, in delivery order. -/
def deliveredTo (s : PoolState) (w : Nat) : List Nat :=
  (s.delivered.filter (fun p => p.1 = w)).map Prod.snd

/-- The number of workers currently executing a job. -/
def executingCount (s : PoolState) : Nat :=
  s.workers.countP (fun wk => wk.job?.isSome && wk.status == WStatus.running)

/-- The state after a worker `w` executing job `j` suffers an unhandled panic:
only that worker's entry changes, to `crashed`. -/
def crashState (s : PoolState) (w j : Nat) (d : List Nat) : PoolState :=
  setWorker s w ⟨some j, d, WStatus.crashed⟩

/-- From `chapter-20/hello/src/main.rs`: the `(status_line, filename)` choice
of `handle_connections`, together with the seconds slept before responding
(the `GET /sleep HTTP/1.1` arm sleeps 5 seconds, the others do not sleep). -/
structure RouteResult where
  status_line : String
  filename : String
  sleep_secs : Nat
deriving DecidableEq, Repr

/-- From `chapter-20/hello/src/main.rs` (`handle_connections`, the `match` on
the request line): `"GET / HTTP/1.1"` answers `200 OK` with `hello.html`;
`"GET /sleep HTTP/1.1"` sleeps 5 seconds then answers `200 OK` with
`hello.html`; every other request line answers `404 NOT FOUND` with
`404.html`. -/
def route (request_line : String) : RouteResult :=
  if request_line = "GET / HTTP/1.1" then ⟨"HTTP/1.1 200 OK", "hello.html", 0⟩
  else if request_line = "GET /sleep HTTP/1.1" then ⟨"HTTP/1.1 200 OK", "hello.html", 5⟩
  else ⟨"HTTP/1.1 404 NOT FOUND", "404.html", 0⟩

/-- From `chapter-20/hello/src/main.rs`: the response string
`format!("{status_line}\r\nContent-Length: {length}\r\n\r\n{contents}")`,
where `length` is `contents.len()` (the UTF-8 byte length). -/
def httpResponse (status_line : String) (contents : String) : String :=
  status_line ++ "\r\nContent-Length: " ++ toString contents.utf8ByteSize
    ++ "\r\n\r\n" ++ contents

/-- From `chapter-20/hello/src/main.rs`: `handle_connections` reads the
request line from its stream, routes it, reads the chosen file
(`fs::read_to_string`, embedded as the ambient file-contents function
`fsRead`), and writes the formatted response back.  A connection is embedded
as the request line its stream yields; the returned string is what is written
back to the stream. -/
def handle_connections (fsRead : String → String) (request_line : String) : String :=
  httpResponse (route request_line).status_line (fsRead (route request_line).filename)

/-- From `chapter-20/hello/src/main.rs` (`main`'s accept loop): one job per
accepted connection; each job is a closure that owns its stream and performs
the whole request/response cycle on it (`handle_connections(stream)`). -/
def serverJobs (fsRead : String → String) (conns : List String) : List (Unit → String) :=
  conns.map (fun stream => fun _ => handle_connections fsRead stream)

/-- From `chapter-20/hello/src/main.rs` (`main`): the effect of the accept
loop on the pool — one successful `execute` per accepted connection. -/
def mainLoop (s : PoolState) (conns : List String) : PoolState :=
  conns.foldl (fun st _ => submitJob st) s

/-- From `chapter-20/hello/src/main.rs` (`main`): the pool size the reference
usage passes to `ThreadPool::new`. -/
def helloPoolSize : Nat := 4

/-- The inductive invariant of the pool state machine, proved to hold in every
reachable state:
* `wlen`, `sizePos`: the worker list has exactly `size ≥ 1` entries forever;
* `fifo`: the delivered job ids followed by the queued job ids are exactly the
  submitted job ids in submission order (FIFO, no loss, no duplication);
* `subRange`: job ids are `0, 1, ...` in submission order;
* `wacct`: each worker's completed jobs followed by its current job are
  exactly the jobs delivered to it, in order;
* `dfst`: deliveries only go to existing workers;
* `termNone`, `termClosed`: a terminated worker holds no job, and workers
  terminate only after the queue is closed;
* `joinedLe`, `joinedClosed`, `joinedDone`: teardown joins at most `size`
  workers, only after closing, and every joined worker's thread has stopped;
* `allTermQueue`: if every worker has terminated, the queue has drained. -/
structure Inv (s : PoolState) : Prop where
  wlen : s.workers.length = s.size
  sizePos : 1 ≤ s.size
  fifo : deliveredIds s ++ s.queue = s.submitted
  subRange : s.submitted = List.range s.submitted.length
  wacct : ∀ w wk, s.workers[w]? = some wk → deliveredTo s w = wk.done ++ wk.job?.toList
  dfst : ∀ p ∈ s.delivered, p.1 < s.workers.length
  termNone : ∀ wk ∈ s.workers, wk.status = WStatus.terminated → wk.job? = none
  termClosed : ∀ wk ∈ s.workers, wk.status = WStatus.terminated → s.closed = true
  joinedLe : s.joined ≤ s.size
  joinedClosed : 0 < s.joined → s.closed = true
  joinedDone : ∀ w, w < s.joined → ∀ wk, s.workers[w]? = some wk → wk.status ≠ WStatus.running
  allTermQueue : (∀ wk ∈ s.workers, wk.status = WStatus.terminated) → s.queue = []

/-- Demonstration trace (used to witness the reachable-state theorems):
a pool of one worker with two jobs submitted. -/
def demoS2 : PoolState := submitJob (submitJob (initState 1))

/-- Demonstration trace: the worker has dequeued job 0. -/
def demoS3 : PoolState :=
  { setWorker demoS2 0 ⟨some 0, [], WStatus.running⟩ with
    queue := [1]
    delivered := demoS2.delivered ++ [(0, 0)] }

/-- Demonstration trace: the worker has finished job 0. -/
def demoS4 : PoolState := setWorker demoS3 0 ⟨none, [0], WStatus.running⟩

/-- Demonstration trace: the worker has dequeued job 1. -/
def demoS5 : PoolState :=
  { setWorker demoS4 0 ⟨some 1, [0], WStatus.running⟩ with
    queue := []
    delivered := demoS4.delivered ++ [(0, 1)] }

/-- Demonstration trace: the worker has finished job 1. -/
def demoS6 : PoolState := setWorker demoS5 0 ⟨none, [0, 1], WStatus.running⟩

/-- Demonstration trace: teardown has closed the producer side. -/
def demoS7 : PoolState := { demoS6 with closed := true }

/-- Demonstration trace: the worker observed closed-and-empty and terminated. -/
def demoS8 : PoolState := setWorker demoS7 0 ⟨none, [0, 1], WStatus.terminated⟩

/-- Demonstration trace: teardown has joined the worker; teardown is done. -/
def demoS9 : PoolState := { demoS8 with joined := 1 }

theorem receive_job_iff {q : List Nat} {c : Bool} {j : Nat} {rest : List Nat} :
    JobQueue.receive q c = ReceiveResult.job j rest ↔ q = j :: rest := by
  cases q with
  | nil => cases c <;> simp [JobQueue.receive]
  | cons a t => simp [JobQueue.receive, And.comm]

theorem receive_closedEmpty_iff {q : List Nat} {c : Bool} :
    JobQueue.receive q c = ReceiveResult.closedEmpty ↔ q = [] ∧ c = true := by
  cases q with
  | nil => cases c <;> simp [JobQueue.receive]
  | cons a t => simp [JobQueue.receive]

theorem receive_wouldBlock_iff {q : List Nat} {c : Bool} :
    JobQueue.receive q c = ReceiveResult.wouldBlock ↔ q = [] ∧ c = false := by
  cases q with
  | nil => cases c <;> simp [JobQueue.receive]
  | cons a t => simp [JobQueue.receive]

theorem getElem?_set_self {α : Type _} {l : List α} {i : Nat} {a : α} (h : i < l.length) :
    (l.set i a)[i]? = some a := by
  simp [List.getElem?_set, h]

theorem mem_of_set_self {α : Type _} {l : List α} {i : Nat} {a : α} (h : i < l.length) :
    a ∈ l.set i a :=
  List.getElem?_mem (getElem?_set_self h)

theorem length_le_one_mem_eq {α : Type _} {l : List α} (h : l.length ≤ 1) {a b : α}
    (ha : a ∈ l) (hb : b ∈ l) : a = b := by
  cases l with
  | nil => cases ha
  | cons x t =>
    cases t with
    | nil =>
      simp only [List.mem_singleton] at ha hb
      rw [ha, hb]
    | cons y u => simp at h

theorem deliveredTo_delivered_snoc (s : PoolState) (D : List (Nat × Nat)) (w w' j : Nat)
    (hD : s.delivered = D ++ [(w, j)]) (s₀ : PoolState) (h₀ : s₀.delivered = D) :
    deliveredTo s w' = deliveredTo s₀ w' ++ (if w = w' then [j] else []) := by
  simp only [deliveredTo, hD, h₀, List.filter_append, List.map_append]
  congr 1
  by_cases hw : w = w' <;> simp [List.filter_singleton, hw]

theorem inv_init (n : Nat) (h : 1 ≤ n) : Inv (initState n) := by
  refine ⟨?_, ?_, ?_, ?_, ?_, ?_, ?_, ?_, ?_, ?_, ?_, ?_⟩
  · simp [initState]
  · exact h
  · simp [initState, deliveredIds]
  · simp [initState]
  · intro w wk hw
    have hwk : wk = idleWorker := by
      by_cases hlt : w < n
      · simp [initState, List.getElem?_replicate, hlt] at hw
        exact hw.symm
      · simp [initState, List.getElem?_replicate, hlt] at hw
    simp [hwk, idleWorker, deliveredTo, initState]
  · intro p hp
    simp [initState] at hp
  · intro wk hm hterm
    have := List.eq_of_mem_replicate (by simpa [initState] using hm)
    rw [this] at hterm
    simp [idleWorker] at hterm
  · intro wk hm hterm
    have := List.eq_of_mem_replicate (by simpa [initState] using hm)
    rw [this] at hterm
    simp [idleWorker] at hterm
  · simp [initState]
  · intro h0
    simp [initState] at h0
  · intro w hw
    simp [initState] at hw
  · intro _
    simp [initState]

theorem exists_worker (s : PoolState) (hInv : Inv s) : ∃ wk, wk ∈ s.workers := by
  refine List.exists_mem_of_length_pos ?_
  rw [hInv.wlen]
  exact hInv.sizePos

theorem inv_submit {s : PoolState} (hInv : Inv s) (h : s.closed = false) :
    Inv (submitJob s) := by
  obtain ⟨wlen, sizePos, fifo, subRange, wacct, dfst, termNone, termClosed, joinedLe,
    joinedClosed, joinedDone, allTermQueue⟩ := hInv
  refine ⟨wlen, sizePos, ?_, ?_, wacct, dfst, termNone, ?_, joinedLe, ?_, joinedDone, ?_⟩
  · show deliveredIds s ++ (s.queue ++ [s.submitted.length]) = s.submitted ++ [s.submitted.length]
    rw [← List.append_assoc, fifo]
  · show s.submitted ++ [s.submitted.length] =
      List.range (s.submitted ++ [s.submitted.length]).length
    have hlen : (s.submitted ++ [s.submitted.length]).length = s.submitted.length + 1 := by simp
    rw [hlen, List.range_succ]
    conv_lhs => rw [subRange]
    simp
  · intro wk hm hterm
    exact termClosed wk hm hterm
  · intro h0
    exact joinedClosed h0
  · intro hall
    obtain ⟨wk, hm⟩ := exists_worker s ⟨wlen, sizePos, fifo, subRange, wacct, dfst, termNone,
      termClosed, joinedLe, joinedClosed, joinedDone, allTermQueue⟩
    have := termClosed wk hm (hall wk hm)
    rw [h] at this
    exact absurd this (by simp)

theorem inv_close {s : PoolState} (hInv : Inv s) :
    Inv { s with closed := true } := by
  obtain ⟨wlen, sizePos, fifo, subRange, wacct, dfst, termNone, termClosed, joinedLe,
    joinedClosed, joinedDone, allTermQueue⟩ := hInv
  exact ⟨wlen, sizePos, fifo, subRange, wacct, dfst, termNone, fun _ _ _ => rfl, joinedLe,
    fun _ => rfl, joinedDone, allTermQueue⟩

theorem inv_join {s : PoolState} (hInv : Inv s) (hc : s.closed = true) (hj : s.joined < s.size)
    (hw : (s.workers[s.joined]?).map Worker.status = some WStatus.terminated ∨
          (s.workers[s.joined]?).map Worker.status = some WStatus.crashed) :
    Inv { s with joined := s.joined + 1 } := by
  obtain ⟨wlen, sizePos, fifo, subRange, wacct, dfst, termNone, termClosed, joinedLe,
    joinedClosed, joinedDone, allTermQueue⟩ := hInv
  refine ⟨wlen, sizePos, fifo, subRange, wacct, dfst, termNone, termClosed, hj, fun _ => hc,
    ?_, allTermQueue⟩
  intro v hv wk hwk
  rcases Nat.lt_succ_iff_lt_or_eq.mp hv with hlt | heq
  · exact joinedDone v hlt wk hwk
  · rw [← heq] at hw
    rcases hw with hterm | hcrash
    · rw [hwk] at hterm
      simp only [Option.map] at hterm
      rw [Option.some.injEq] at hterm
      rw [hterm]
      decide
    · rw [hwk] at hcrash
      simp only [Option.map] at hcrash
      rw [Option.some.injEq] at hcrash
      rw [hcrash]
      decide

theorem deliveredTo_setWorker (s : PoolState) (w v : Nat) (wk : Worker) :
    deliveredTo (setWorker s w wk) v = deliveredTo s v := rfl

theorem wacct_setWorker {s : PoolState} (w : Nat) (old new : Worker)
    (hInv : Inv s)
    (hw : s.workers[w]? = some old)
    (hsame : old.done ++ old.job?.toList = new.done ++ new.job?.toList) :
    ∀ v wk, (setWorker s w new).workers[v]? = some wk →
      deliveredTo (setWorker s w new) v = wk.done ++ wk.job?.toList := by
  intro v wk hv
  rw [deliveredTo_setWorker]
  by_cases hvw : v = w
  · subst hvw
    have hlt : v < s.workers.length := (List.getElem?_eq_some.mp hw).1
    rw [show (setWorker s v new).workers = s.workers.set v new from rfl] at hv
    rw [getElem?_set_self hlt] at hv
    rw [Option.some.injEq] at hv
    rw [hv] at hsame
    rw [← hsame]
    exact hInv.wacct v old hw
  · rw [show (setWorker s w new).workers = s.workers.set w new from rfl] at hv
    rw [List.getElem?_set_ne (fun h => hvw h.symm)] at hv
    exact hInv.wacct v wk hv

theorem inv_terminate {s : PoolState} (hInv : Inv s) (w : Nat) (d : List Nat)
    (hw : s.workers[w]? = some ⟨none, d, WStatus.running⟩)
    (hq : JobQueue.receive s.queue s.closed = ReceiveResult.closedEmpty) :
    Inv (setWorker s w ⟨none, d, WStatus.terminated⟩) := by
  obtain ⟨hqe, hcl⟩ := receive_closedEmpty_iff.mp hq
  refine ⟨?_, hInv.sizePos, hInv.fifo, hInv.subRange, ?_, ?_, ?_, ?_, hInv.joinedLe,
    fun _ => hcl, ?_, fun _ => hqe⟩
  · rw [show (setWorker s w _).workers = s.workers.set w _ from rfl]
    rw [List.length_set]
    exact hInv.wlen
  · exact wacct_setWorker w ⟨none, d, WStatus.running⟩ ⟨none, d, WStatus.terminated⟩ hInv hw rfl
  · intro p hp
    rw [show (setWorker s w _).workers = s.workers.set w _ from rfl, List.length_set]
    exact hInv.dfst p hp
  · intro wk hm hterm
    rcases List.mem_or_eq_of_mem_set hm with hold | hnew
    · exact hInv.termNone _ hold hterm
    · rw [hnew]
  · intro wk _ _
    exact hcl
  · intro v hv wk hvk
    by_cases hvw : v = w
    · subst hvw
      have hlt : v < s.workers.length := (List.getElem?_eq_some.mp hw).1
      rw [show (setWorker s v _).workers = s.workers.set v _ from rfl] at hvk
      rw [getElem?_set_self hlt] at hvk
      rw [Option.some.injEq] at hvk
      rw [← hvk]
      simp
    · rw [show (setWorker s w _).workers = s.workers.set w _ from rfl] at hvk
      rw [List.getElem?_set_ne (fun h => hvw h.symm)] at hvk
      exact hInv.joinedDone v hv wk hvk

theorem inv_finish {s : PoolState} (hInv : Inv s) (w j : Nat) (d : List Nat)
    (hw : s.workers[w]? = some ⟨some j, d, WStatus.running⟩) :
    Inv (setWorker s w ⟨none, d ++ [j], WStatus.running⟩) := by
  have hlt : w < s.workers.length := (List.getElem?_eq_some.mp hw).1
  refine ⟨?_, hInv.sizePos, hInv.fifo, hInv.subRange, ?_, ?_, ?_, ?_, hInv.joinedLe,
    hInv.joinedClosed, ?_, ?_⟩
  · rw [show (setWorker s w _).workers = s.workers.set w _ from rfl, List.length_set]
    exact hInv.wlen
  · exact wacct_setWorker w ⟨some j, d, WStatus.running⟩ ⟨none, d ++ [j], WStatus.running⟩
      hInv hw (by simp)
  · intro p hp
    rw [show (setWorker s w _).workers = s.workers.set w _ from rfl, List.length_set]
    exact hInv.dfst p hp
  · intro wk hm hterm
    rcases List.mem_or_eq_of_mem_set hm with hold | hnew
    · exact hInv.termNone _ hold hterm
    · rw [hnew] at hterm
      simp at hterm
  · intro wk hm hterm
    rcases List.mem_or_eq_of_mem_set hm with hold | hnew
    · exact hInv.termClosed _ hold hterm
    · rw [hnew] at hterm
      simp at hterm
  · intro v hv wk hvk
    by_cases hvw : v = w
    · subst hvw
      exact absurd rfl (hInv.joinedDone v hv _ hw)
    · rw [show (setWorker s w _).workers = s.workers.set w _ from rfl] at hvk
      rw [List.getElem?_set_ne (fun h => hvw h.symm)] at hvk
      exact hInv.joinedDone v hv wk hvk
  · intro hall
    have hmem : (⟨none, d ++ [j], WStatus.running⟩ : Worker) ∈
        (setWorker s w ⟨none, d ++ [j], WStatus.running⟩).workers := mem_of_set_self hlt
    have := hall _ hmem
    simp at this

theorem inv_crash {s : PoolState} (hInv : Inv s) (w j : Nat) (d : List Nat)
    (hw : s.workers[w]? = some ⟨some j, d, WStatus.running⟩) :
    Inv (setWorker s w ⟨some j, d, WStatus.crashed⟩) := by
  have hlt : w < s.workers.length := (List.getElem?_eq_some.mp hw).1
  refine ⟨?_, hInv.sizePos, hInv.fifo, hInv.subRange, ?_, ?_, ?_, ?_, hInv.joinedLe,
    hInv.joinedClosed, ?_, ?_⟩
  · rw [show (setWorker s w _).workers = s.workers.set w _ from rfl, List.length_set]
    exact hInv.wlen
  · exact wacct_setWorker w ⟨some j, d, WStatus.running⟩ ⟨some j, d, WStatus.crashed⟩
      hInv hw rfl
  · intro p hp
    rw [show (setWorker s w _).workers = s.workers.set w _ from rfl, List.length_set]
    exact hInv.dfst p hp
  · intro wk hm hterm
    rcases List.mem_or_eq_of_mem_set hm with hold | hnew
    · exact hInv.termNone _ hold hterm
    · rw [hnew] at hterm
      simp at hterm
  · intro wk hm hterm
    rcases List.mem_or_eq_of_mem_set hm with hold | hnew
    · exact hInv.termClosed _ hold hterm
    · rw [hnew] at hterm
      simp at hterm
  · intro v hv wk hvk
    by_cases hvw : v = w
    · subst hvw
      exact absurd rfl (hInv.joinedDone v hv _ hw)
    · rw [show (setWorker s w _).workers = s.workers.set w _ from rfl] at hvk
      rw [List.getElem?_set_ne (fun h => hvw h.symm)] at hvk
      exact hInv.joinedDone v hv wk hvk
  · intro hall
    have hmem : (⟨some j, d, WStatus.crashed⟩ : Worker) ∈
        (setWorker s w ⟨some j, d, WStatus.crashed⟩).workers := mem_of_set_self hlt
    have := hall _ hmem
    simp at this

theorem inv_dequeue {s : PoolState} (hInv : Inv s) (w j : Nat) (rest d : List Nat)
    (hw : s.workers[w]? = some ⟨none, d, WStatus.running⟩)
    (hq : JobQueue.receive s.queue s.closed = ReceiveResult.job j rest) :
    Inv { setWorker s w ⟨some j, d, WStatus.running⟩ with
          queue := rest
          delivered := s.delivered ++ [(w, j)] } := by
  have hqe : s.queue = j :: rest := receive_job_iff.mp hq
  have hlt : w < s.workers.length := (List.getElem?_eq_some.mp hw).1
  refine ⟨?_, hInv.sizePos, ?_, hInv.subRange, ?_, ?_, ?_, ?_, hInv.joinedLe,
    hInv.joinedClosed, ?_, ?_⟩
  · show (s.workers.set w _).length = s.size
    rw [List.length_set]
    exact hInv.wlen
  · show deliveredIds { setWorker s w _ with queue := rest, delivered := _ } ++ rest
      = s.submitted
    have hids : deliveredIds { setWorker s w ⟨some j, d, WStatus.running⟩ with
        queue := rest, delivered := s.delivered ++ [(w, j)] } = deliveredIds s ++ [j] := by
      simp [deliveredIds]
    rw [hids, List.append_assoc]
    rw [show [j] ++ rest = j :: rest from rfl, ← hqe]
    exact hInv.fifo
  · intro v wk hvk
    have hdel : deliveredTo { setWorker s w ⟨some j, d, WStatus.running⟩ with
        queue := rest, delivered := s.delivered ++ [(w, j)] } v
        = deliveredTo s v ++ (if w = v then [j] else []) := by
      apply deliveredTo_delivered_snoc _ s.delivered w v j rfl s rfl
    rw [hdel]
    by_cases hvw : v = w
    · subst hvw
      rw [show ({ setWorker s v ⟨some j, d, WStatus.running⟩ with
            queue := rest, delivered := s.delivered ++ [(v, j)] } : PoolState).workers
          = s.workers.set v ⟨some j, d, WStatus.running⟩ from rfl] at hvk
      rw [getElem?_set_self hlt] at hvk
      rw [Option.some.injEq] at hvk
      rw [← hvk]
      have := hInv.wacct v ⟨none, d, WStatus.running⟩ hw
      simp only [Option.toList] at this ⊢
      simp at this
      simp [this]
    · rw [show ({ setWorker s w ⟨some j, d, WStatus.running⟩ with
            queue := rest, delivered := s.delivered ++ [(w, j)] } : PoolState).workers
          = s.workers.set w ⟨some j, d, WStatus.running⟩ from rfl] at hvk
      rw [List.getElem?_set_ne (fun h => hvw h.symm)] at hvk
      rw [if_neg (fun h => hvw h.symm)]
      rw [List.append_nil]
      exact hInv.wacct v wk hvk
  · intro p hp
    rw [show ({ setWorker s w ⟨some j, d, WStatus.running⟩ with
          queue := rest, delivered := s.delivered ++ [(w, j)] } : PoolState).workers
        = s.workers.set w ⟨some j, d, WStatus.running⟩ from rfl, List.length_set]
    rcases List.mem_append.mp hp with hold | hnew
    · exact hInv.dfst p hold
    · rw [List.mem_singleton] at hnew
      rw [hnew]
      exact hlt
  · intro wk hm hterm
    rcases List.mem_or_eq_of_mem_set hm with hold | hnew
    · exact hInv.termNone _ hold hterm
    · rw [hnew] at hterm
      simp at hterm
  · intro wk hm hterm
    rcases List.mem_or_eq_of_mem_set hm with hold | hnew
    · exact hInv.termClosed _ hold hterm
    · rw [hnew] at hterm
      simp at hterm
  · intro v hv wk hvk
    by_cases hvw : v = w
    · subst hvw
      exact absurd rfl (hInv.joinedDone v hv _ hw)
    · rw [show ({ setWorker s w ⟨some j, d, WStatus.running⟩ with
            queue := rest, delivered := s.delivered ++ [(w, j)] } : PoolState).workers
          = s.workers.set w ⟨some j, d, WStatus.running⟩ from rfl] at hvk
      rw [List.getElem?_set_ne (fun h => hvw h.symm)] at hvk
      exact hInv.joinedDone v hv wk hvk
  · intro hall
    have hmem : (⟨some j, d, WStatus.running⟩ : Worker) ∈
        ({ setWorker s w ⟨some j, d, WStatus.running⟩ with
           queue := rest, delivered := s.delivered ++ [(w, j)] } : PoolState).workers :=
      mem_of_set_self hlt
    have := hall _ hmem
    simp at this

/-- Every step of the pool state machine preserves the invariant. -/
theorem inv_step {s s' : PoolState} (hInv : Inv s) (hs : Step s s') : Inv s' := by
  cases hs with
  | submit h => exact inv_submit hInv h
  | dequeue w j rest d hw hq => exact inv_dequeue hInv w j rest d hw hq
  | finish w j d hw => exact inv_finish hInv w j d hw
  | crash w j d hw => exact inv_crash hInv w j d hw
  | close h => exact inv_close hInv
  | terminate w d hw hq => exact inv_terminate hInv w d hw hq
  | join hc hj hw => exact inv_join hInv hc hj hw

/-- The invariant holds in every reachable pool state. -/
theorem reachable_inv {s : PoolState} (hr : Reachable s) : Inv s := by
  induction hr with
  | init n h => exact inv_init n h
  | step _ hs ih => exact inv_step ih hs

theorem deliveredIds_nodup {s : PoolState} (hInv : Inv s) : (deliveredIds s).Nodup := by
  have h : (deliveredIds s ++ s.queue).Nodup := by
    rw [hInv.fifo, hInv.subRange]
    exact List.nodup_range _
  exact h.of_append_left

theorem deliveredIds_range {s : PoolState} (hInv : Inv s) :
    deliveredIds s = List.range (deliveredIds s).length := by
  have hlen : (deliveredIds s).length ≤ s.submitted.length := by
    rw [← hInv.fifo]
    simp
  calc deliveredIds s
      = (deliveredIds s ++ s.queue).take (deliveredIds s).length :=
        (List.take_left _ _).symm
    _ = (List.range s.submitted.length).take (deliveredIds s).length := by
        rw [hInv.fifo]
        conv_lhs => rw [hInv.subRange]
    _ = List.range (min (deliveredIds s).length s.submitted.length) := List.take_range _ _
    _ = List.range (deliveredIds s).length := by rw [Nat.min_eq_left hlen]

theorem delivered_filter_le_one {s : PoolState} (hInv : Inv s) (j : Nat) :
    (s.delivered.filter (fun p => p.2 = j)).length ≤ 1 := by
  have hcount : (deliveredIds s).count j ≤ 1 :=
    List.nodup_iff_count_le_one.mp (deliveredIds_nodup hInv) j
  rw [List.count_eq_countP, List.countP_eq_length_filter] at hcount
  rw [deliveredIds, List.filter_map, List.length_map] at hcount
  have hfe : s.delivered.filter (fun p => p.2 = j) = s.delivered.filter (fun p => p.2 == j) := by
    apply List.filter_congr
    intro p _
    rw [Bool.eq_iff_iff]
    simp
  rw [hfe]
  exact hcount

theorem pair_of_mem_deliveredTo {s : PoolState} {v j : Nat} (h : j ∈ deliveredTo s v) :
    (v, j) ∈ s.delivered := by
  rw [deliveredTo] at h
  rcases List.mem_map.mp h with ⟨p, hp, hsnd⟩
  rcases List.mem_filter.mp hp with ⟨hmem, hfst⟩
  have hfst' : p.1 = v := by simpa using hfst
  have : p = (v, j) := by
    rw [Prod.ext_iff]
    exact ⟨hfst', hsnd⟩
  rw [← this]
  exact hmem

theorem mem_deliveredTo_of_pair {s : PoolState} {v j : Nat} (h : (v, j) ∈ s.delivered) :
    j ∈ deliveredTo s v := by
  rw [deliveredTo]
  refine List.mem_map.mpr ⟨(v, j), ?_, rfl⟩
  refine List.mem_filter.mpr ⟨h, by simp⟩

theorem mainLoop_submitted_length (conns : List String) :
    ∀ s : PoolState, (mainLoop s conns).submitted.length = s.submitted.length + conns.length := by
  induction conns with
  | nil => intro s; simp [mainLoop]
  | cons c cs ih =>
    intro s
    show (mainLoop (submitJob s) cs).submitted.length = s.submitted.length + (cs.length + 1)
    have h2 : (submitJob s).submitted.length = s.submitted.length + 1 := by simp [submitJob]
    rw [ih (submitJob s), h2]
    omega

theorem reachable_demoS2 : Reachable demoS2 :=
  Reachable.step (Reachable.step (Reachable.init 1 (by decide)) (Step.submit rfl))
    (Step.submit rfl)

theorem reachable_demoS5 : Reachable demoS5 :=
  Reachable.step
    (Reachable.step
      (Reachable.step reachable_demoS2 (Step.dequeue 0 0 [1] [] (by decide) rfl))
      (Step.finish 0 0 [] (by decide)))
    (Step.dequeue 0 1 [] [0] (by decide) rfl)

theorem reachable_demoS9 : Reachable demoS9 :=
  Reachable.step
    (Reachable.step
      (Reachable.step
        (Reachable.step reachable_demoS5 (Step.finish 0 1 [0] (by decide)))
        (Step.close rfl))
      (Step.terminate 0 [0, 1] (by decide) rfl))
    (Step.join rfl (by decide) (Or.inl (by decide)))

/-- C1: in every reachable pool state, every job successfully enqueued via
`submit` is delivered to at most one Worker at most once (at most one entry of
the delivery log carries its id, so never two workers and never twice), is
never dropped (a submitted job not yet delivered is still in the queue — it
can only remain unexecuted if the pool is torn down with it still queued, or
no running worker remains to dequeue it), and each Worker's executed-jobs
history plus its current job is exactly the sequence of jobs delivered to it,
so a delivered job's body is run exactly once, by the one Worker that received
it. -/
theorem c1_submitted_job_runs_exactly_once (s : PoolState) (hr : Reachable s)
    (j : Nat) (hj : j ∈ s.submitted) :
    (s.delivered.filter (fun p => p.2 = j)).length ≤ 1 ∧
    (j ∈ deliveredIds s ∨ j ∈ s.queue) ∧
    (∀ (w : Nat) (wk : Worker), s.workers[w]? = some wk →
      wk.done ++ wk.job?.toList = deliveredTo s w) := by
  have hInv := reachable_inv hr
  refine ⟨delivered_filter_le_one hInv j, ?_, ?_⟩
  · rw [← hInv.fifo] at hj
    exact List.mem_append.mp hj
  · intro w wk hw
    exact (hInv.wacct w wk hw).symm

theorem c1_witness :
    (demoS5.delivered.filter (fun p => p.2 = 0)).length ≤ 1 ∧
    (0 ∈ deliveredIds demoS5 ∨ 0 ∈ demoS5.queue) := by
  have h := c1_submitted_job_runs_exactly_once demoS5 reachable_demoS5 0 (by decide)
  exact ⟨h.1, h.2.1⟩

/-- C2: once teardown has returned (every one of the `size` workers has been
joined), the producer side is closed, no Worker thread is still running, and —
provided no Worker crashed — the queue has fully drained and every job that
was successfully enqueued before closing has completed execution on some
Worker.  Moreover a join transition only ever happens after closing, and the
k-th join is of worker index k, i.e. joins proceed in worker-index order. -/
theorem c2_teardown_drains_and_joins_in_order (s : PoolState) (hr : Reachable s)
    (hjoined : s.joined = s.size) :
    s.closed = true ∧
    (∀ wk ∈ s.workers, wk.status ≠ WStatus.running) ∧
    ((∀ wk ∈ s.workers, wk.status ≠ WStatus.crashed) →
      s.queue = [] ∧ ∀ j ∈ s.submitted,
        ∃ (w : Nat) (wk : Worker), s.workers[w]? = some wk ∧ j ∈ wk.done) ∧
    (∀ t t' : PoolState, Step t t' → t'.joined = t.joined + 1 →
      t.closed = true ∧ t.joined < t.size ∧
      ((t.workers[t.joined]?).map Worker.status = some WStatus.terminated ∨
       (t.workers[t.joined]?).map Worker.status = some WStatus.crashed)) := by
  have hInv := reachable_inv hr
  have hallstop : ∀ wk ∈ s.workers, wk.status ≠ WStatus.running := by
    intro wk hm
    rcases List.mem_iff_getElem.mp hm with ⟨i, hi, hget⟩
    have hi' : i < s.joined := by
      rw [hjoined, ← hInv.wlen]
      exact hi
    have hsome : s.workers[i]? = some wk := by
      rw [List.getElem?_eq_getElem hi, hget]
    exact hInv.joinedDone i hi' wk hsome
  refine ⟨?_, hallstop, ?_, ?_⟩
  · refine hInv.joinedClosed ?_
    rw [hjoined]
    exact Nat.lt_of_lt_of_le Nat.zero_lt_one hInv.sizePos
  · intro hnocrash
    have hallterm : ∀ wk ∈ s.workers, wk.status = WStatus.terminated := by
      intro wk hm
      rcases wk with ⟨j?, dd, st⟩
      cases st with
      | running => exact absurd rfl (hallstop _ hm)
      | terminated => rfl
      | crashed => exact absurd rfl (hnocrash _ hm)
    refine ⟨hInv.allTermQueue hallterm, ?_⟩
    intro j hj
    have hjdel : j ∈ deliveredIds s := by
      rw [← hInv.fifo, hInv.allTermQueue hallterm, List.append_nil] at hj
      exact hj
    rcases List.mem_map.mp hjdel with ⟨p, hp, hsnd⟩
    have hwlt : p.1 < s.workers.length := hInv.dfst p hp
    have hsome : s.workers[p.1]? = some s.workers[p.1] := List.getElem?_eq_getElem hwlt
    refine ⟨p.1, s.workers[p.1], hsome, ?_⟩
    have hmemw : s.workers[p.1] ∈ s.workers := List.getElem_mem hwlt
    have hnone : (s.workers[p.1]).job? = none :=
      hInv.termNone _ hmemw (hallterm _ hmemw)
    have hdelto : j ∈ deliveredTo s p.1 := by
      refine mem_deliveredTo_of_pair ?_
      have : p = (p.1, j) := by
        rw [Prod.ext_iff]
        exact ⟨rfl, hsnd⟩
      rw [← this]
      exact hp
    rw [hInv.wacct p.1 _ hsome, hnone] at hdelto
    simpa using hdelto
  · intro t t' hst heq
    cases hst with
    | submit h => exact absurd (show t.joined = t.joined + 1 from heq) (by omega)
    | dequeue w j rest d hw hq =>
        exact absurd (show t.joined = t.joined + 1 from heq) (by omega)
    | finish w j d hw => exact absurd (show t.joined = t.joined + 1 from heq) (by omega)
    | crash w j d hw => exact absurd (show t.joined = t.joined + 1 from heq) (by omega)
    | close h => exact absurd (show t.joined = t.joined + 1 from heq) (by omega)
    | terminate w d hw hq => exact absurd (show t.joined = t.joined + 1 from heq) (by omega)
    | join hc hj hw => exact ⟨hc, hj, hw⟩

theorem c2_witness : demoS9.closed = true ∧ demoS9.queue = [] := by
  have h := c2_teardown_drains_and_joins_in_order demoS9 reachable_demoS9 rfl
  exact ⟨h.1, (h.2.2.1 (by decide)).1⟩

/-- C3: calling `submit`/`execute` on a pool whose queue has been closed
(teardown has begun) returns the `PoolClosed` error as an ordinary value to
the caller: it does not enqueue anything, does not silently drop the job on a
succeeding path, and does not panic — the operation is a total function whose
result is the error. -/
theorem c3_submit_after_close_returns_poolclosed (s : PoolState) (h : s.closed = true) :
    ThreadPool.execute s = Except.error PoolError.PoolClosed ∧
    (∀ s₂, ThreadPool.execute s ≠ Except.ok s₂) := by
  constructor
  · simp [ThreadPool.execute, h]
  · intro s₂
    simp [ThreadPool.execute, h]

theorem c3_witness :
    ThreadPool.execute demoS7 = Except.error PoolError.PoolClosed := by
  have h := c3_submit_after_close_returns_poolclosed demoS7 rfl
  exact h.1

/-- C4: `ThreadPool::new 0` fails with the `InvalidPoolSize` construction
error (and hence spawns no workers — no pool state exists); for every `n ≥ 1`
construction succeeds with exactly `n` spawned workers; and no transition of
the pool ever changes the number of live workers, so the worker count is fixed
for the pool's whole life. -/
theorem c4_new_validates_size_and_worker_count_fixed :
    ThreadPool.new 0 = Except.error PoolError.InvalidPoolSize ∧
    (∀ n, 1 ≤ n → ThreadPool.new n = Except.ok (initState n) ∧
      (initState n).workers.length = n) ∧
    (∀ s s' : PoolState, Step s s' → s'.workers.length = s.workers.length) := by
  refine ⟨rfl, ?_, ?_⟩
  · intro n hn
    have hne : n ≠ 0 := Nat.pos_iff_ne_zero.mp hn
    constructor
    · simp [ThreadPool.new, hne]
    · simp [initState]
  · intro s s' hs
    cases hs <;> simp [submitJob, setWorker]

theorem c4_witness :
    ThreadPool.new 0 = Except.error PoolError.InvalidPoolSize ∧
    ThreadPool.new 4 = Except.ok (initState 4) ∧
    (initState 4).workers.length = 4 ∧
    (submitJob (initState 4)).workers.length = (initState 4).workers.length := by
  have h := c4_new_validates_size_and_worker_count_fixed
  exact ⟨h.1, (h.2.1 4 (by decide)).1, (h.2.1 4 (by decide)).2,
    h.2.2 (initState 4) _ (Step.submit rfl)⟩

/-- C5: in every reachable state the delivery log followed by the still-queued
jobs is exactly the submission log (the single total order in which sends
completed, job ids being consecutive submission indices), so deliveries happen
in submission order: if J1 was submitted before J2 (smaller id) and both were
dequeued, J1 occupies an earlier delivery position than J2 — J1 was handed to
some worker before J2 was handed to any worker. -/
theorem c5_fifo_delivery_in_submission_order (s : PoolState) (hr : Reachable s) :
    deliveredIds s ++ s.queue = s.submitted ∧
    deliveredIds s = List.range (deliveredIds s).length ∧
    (∀ (i₁ i₂ j₁ j₂ : Nat), (deliveredIds s)[i₁]? = some j₁ →
      (deliveredIds s)[i₂]? = some j₂ → j₁ < j₂ → i₁ < i₂) := by
  have hInv := reachable_inv hr
  have hrange := deliveredIds_range hInv
  refine ⟨hInv.fifo, hrange, ?_⟩
  intro i₁ i₂ j₁ j₂ h₁ h₂ hlt
  rw [hrange] at h₁ h₂
  rcases List.getElem?_eq_some.mp h₁ with ⟨hb₁, hg₁⟩
  rcases List.getElem?_eq_some.mp h₂ with ⟨hb₂, hg₂⟩
  rw [List.getElem_range] at hg₁ hg₂
  rw [← hg₁, ← hg₂] at hlt
  exact hlt

theorem c5_witness :
    deliveredIds demoS5 ++ demoS5.queue = demoS5.submitted ∧ (0 : Nat) < 1 := by
  have h := c5_fifo_delivery_in_submission_order demoS5 reachable_demoS5
  exact ⟨h.1, h.2.2 0 1 0 1 (by decide) (by decide) (by decide)⟩

/-- C6: `JobQueue.receive` returns the front job immediately whenever one is
available; once the sending side is closed and the queue is empty it returns
the distinguishable `closedEmpty` end-of-stream signal; it blocks only while
the queue is empty and still open (so it never blocks forever once
closed-and-empty); and consequently any idle running Worker of a pool whose
queue is closed and empty can take the clean `terminate` transition out of its
receive loop. -/
theorem c6_receive_never_blocks_once_closed (q : List Nat) (c : Bool) (j : Nat)
    (rest : List Nat) :
    JobQueue.receive (j :: rest) c = ReceiveResult.job j rest ∧
    JobQueue.receive [] true = ReceiveResult.closedEmpty ∧
    (JobQueue.receive q c = ReceiveResult.wouldBlock ↔ q = [] ∧ c = false) ∧
    (∀ s : PoolState, ∀ w : Nat, ∀ d : List Nat,
      s.workers[w]? = some ⟨none, d, WStatus.running⟩ → s.queue = [] → s.closed = true →
      Step s (setWorker s w ⟨none, d, WStatus.terminated⟩)) := by
  refine ⟨rfl, rfl, receive_wouldBlock_iff, ?_⟩
  intro s w d hw hq hc
  refine Step.terminate w d hw ?_
  rw [hq, hc]
  rfl

theorem c6_witness :
    JobQueue.receive [3] false = ReceiveResult.job 3 [] ∧
    JobQueue.receive [] true = ReceiveResult.closedEmpty ∧
    Step demoS7 (setWorker demoS7 0 ⟨none, [0, 1], WStatus.terminated⟩) := by
  have h := c6_receive_never_blocks_once_closed [] false 3 []
  exact ⟨h.1, h.2.1, h.2.2.2 demoS7 0 [0, 1] (by decide) rfl rfl⟩

/-- C7: in every reachable state of a pool of size N, at most N jobs are
executing concurrently (the workers currently running a job are a subset of
the N workers); each worker holds at most one current job by construction of
the Worker state (it executes one job to completion before taking another,
never interleaving); and when every worker is busy, no transition can deliver
another job — an (N+1)-th submitted job cannot begin until some worker
finishes. -/
theorem c7_bounded_concurrency (s : PoolState) (hr : Reachable s) :
    executingCount s ≤ s.size ∧
    (∀ (w : Nat) (wk : Worker), s.workers[w]? = some wk → wk.job?.toList.length ≤ 1) ∧
    ((∀ wk ∈ s.workers, wk.job?.isSome = true) →
      ∀ s', Step s s' → s'.delivered = s.delivered) := by
  have hInv := reachable_inv hr
  refine ⟨?_, ?_, ?_⟩
  · rw [← hInv.wlen]
    exact List.countP_le_length _
  · intro w wk _
    cases wk.job? <;> simp
  · intro hbusy s' hs
    cases hs with
    | submit h => rfl
    | dequeue w j rest d hw hq =>
        have := hbusy _ (List.getElem?_mem hw)
        simp at this
    | finish w j d hw => rfl
    | crash w j d hw => rfl
    | close h => rfl
    | terminate w d hw hq => rfl
    | join hc hj hw => rfl

theorem c7_witness :
    executingCount (initState 2) ≤ (initState 2).size := by
  have h := c7_bounded_concurrency (initState 2) (Reachable.init 2 (by decide))
  exact h.1

/-- C8: a panic inside a job (the `crash` transition of the worker executing
it) is a legal transition that changes only that worker's entry: the queue,
the closed flag, the submission log, the number of workers and every other
worker are untouched; if the pool was not closed, `submit` still succeeds
afterwards (the queue remains open); and no transition ever changes a crashed
worker's entry again — the pool never respawns it, so capacity stays reduced
by exactly one for the rest of the pool's life. -/
theorem c8_panic_contained_to_one_worker (s : PoolState) (w j : Nat) (d : List Nat)
    (hw : s.workers[w]? = some ⟨some j, d, WStatus.running⟩) :
    Step s (crashState s w j d) ∧
    (crashState s w j d).queue = s.queue ∧
    (crashState s w j d).closed = s.closed ∧
    (crashState s w j d).submitted = s.submitted ∧
    (crashState s w j d).workers.length = s.workers.length ∧
    (∀ v, v ≠ w → (crashState s w j d).workers[v]? = s.workers[v]?) ∧
    (s.closed = false →
      ThreadPool.execute (crashState s w j d) =
        Except.ok (submitJob (crashState s w j d))) ∧
    (∀ t t' : PoolState, Step t t' → ∀ (v jj : Nat) (dd : List Nat),
      t.workers[v]? = some ⟨some jj, dd, WStatus.crashed⟩ →
      t'.workers[v]? = some ⟨some jj, dd, WStatus.crashed⟩) := by
  refine ⟨Step.crash w j d hw, rfl, rfl, rfl, ?_, ?_, ?_, ?_⟩
  · simp [crashState, setWorker]
  · intro v hv
    show (s.workers.set w _)[v]? = s.workers[v]?
    exact List.getElem?_set_ne (fun h => hv h.symm)
  · intro hopen
    simp [ThreadPool.execute, crashState, setWorker, hopen]
  · intro t t' hst v jj dd hv
    cases hst with
    | submit h => exact hv
    | dequeue w' j' rest' d' hw' hq' =>
        by_cases hvw : v = w'
        · subst hvw
          rw [hv] at hw'
          simp at hw'
        · show (t.workers.set w' _)[v]? = _
          rw [List.getElem?_set_ne (fun h => hvw h.symm)]
          exact hv
    | finish w' j' d' hw' =>
        by_cases hvw : v = w'
        · subst hvw
          rw [hv] at hw'
          simp at hw'
        · show (t.workers.set w' _)[v]? = _
          rw [List.getElem?_set_ne (fun h => hvw h.symm)]
          exact hv
    | crash w' j' d' hw' =>
        by_cases hvw : v = w'
        · subst hvw
          rw [hv] at hw'
          simp at hw'
        · show (t.workers.set w' _)[v]? = _
          rw [List.getElem?_set_ne (fun h => hvw h.symm)]
          exact hv
    | close h => exact hv
    | terminate w' d' hw' hq' =>
        by_cases hvw : v = w'
        · subst hvw
          rw [hv] at hw'
          simp at hw'
        · show (t.workers.set w' _)[v]? = _
          rw [List.getElem?_set_ne (fun h => hvw h.symm)]
          exact hv
    | join hc hj hw' => exact hv

theorem c8_witness :
    Step demoS3 (crashState demoS3 0 0 []) ∧
    (crashState demoS3 0 0 []).queue = demoS3.queue ∧
    ThreadPool.execute (crashState demoS3 0 0 []) =
      Except.ok (submitJob (crashState demoS3 0 0 [])) := by
  have h := c8_panic_contained_to_one_worker demoS3 0 0 [] (by decide)
  exact ⟨h.1, h.2.1, h.2.2.2.2.2.2.1 rfl⟩

/-- C9: the reference usage (`main` in `chapter-20/hello/src/main.rs`)
constructs the pool with size 4 (`helloPoolSize`), spawning 4 workers; its
accept loop submits exactly one job per accepted connection; and the i-th job
is the closure that owns the i-th connection's stream and performs the entire
request/response cycle on it (`handle_connections`: read the request line,
decide the response, write the bytes back). -/
theorem c9_reference_usage_one_job_per_connection (fsRead : String → String)
    (conns : List String) :
    ThreadPool.new helloPoolSize = Except.ok (initState 4) ∧
    (initState helloPoolSize).size = 4 ∧
    (initState helloPoolSize).workers.length = 4 ∧
    (serverJobs fsRead conns).length = conns.length ∧
    (mainLoop (initState helloPoolSize) conns).submitted.length = conns.length ∧
    (∀ (i : Nat) (c : String), conns[i]? = some c →
      (serverJobs fsRead conns)[i]? = some (fun _ => handle_connections fsRead c)) := by
  refine ⟨rfl, rfl, by simp [initState, helloPoolSize], by simp [serverJobs], ?_, ?_⟩
  · rw [mainLoop_submitted_length conns (initState helloPoolSize)]
    simp [initState]
  · intro i c hc
    simp [serverJobs, List.getElem?_map, hc]

theorem c9_witness :
    ThreadPool.new helloPoolSize = Except.ok (initState 4) ∧
    (serverJobs (fun _ => "contents") ["GET / HTTP/1.1"]).length = 1 ∧
    (mainLoop (initState helloPoolSize) ["GET / HTTP/1.1"]).submitted.length = 1 ∧
    (serverJobs (fun _ => "contents") ["GET / HTTP/1.1"])[0]? =
      some (fun _ => handle_connections (fun _ => "contents") "GET / HTTP/1.1") := by
  have h := c9_reference_usage_one_job_per_connection (fun _ => "contents") ["GET / HTTP/1.1"]
  exact ⟨h.1, h.2.2.2.1, h.2.2.2.2.1, h.2.2.2.2.2 0 "GET / HTTP/1.1" rfl⟩

/-- C10: `handle_connections` answers `HTTP/1.1 200 OK` with `hello.html`
exactly when the request line is `GET / HTTP/1.1` or `GET /sleep HTTP/1.1`; it
sleeps 5 seconds exactly in the `/sleep` case; every other request line gets
`HTTP/1.1 404 NOT FOUND` with `404.html`; and the response written back is
always the chosen status line with the chosen file's contents (and their byte
length), whatever the filesystem contents are. -/
theorem c10_route_and_response (fsRead : String → String) (r : String) :
    (((route r).status_line = "HTTP/1.1 200 OK" ∧ (route r).filename = "hello.html") ↔
      (r = "GET / HTTP/1.1" ∨ r = "GET /sleep HTTP/1.1")) ∧
    ((route r).sleep_secs = 5 ↔ r = "GET /sleep HTTP/1.1") ∧
    ((route r).status_line = "HTTP/1.1 404 NOT FOUND" ↔
      ¬(r = "GET / HTTP/1.1" ∨ r = "GET /sleep HTTP/1.1")) ∧
    ((route r).status_line = "HTTP/1.1 404 NOT FOUND" → (route r).filename = "404.html") ∧
    handle_connections fsRead r =
      httpResponse (route r).status_line (fsRead (route r).filename) := by
  by_cases h1 : r = "GET / HTTP/1.1"
  · subst h1
    exact ⟨by decide, by decide, by decide, by decide, rfl⟩
  · by_cases h2 : r = "GET /sleep HTTP/1.1"
    · subst h2
      exact ⟨by decide, by decide, by decide, by decide, rfl⟩
    · have hroute : route r = ⟨"HTTP/1.1 404 NOT FOUND", "404.html", 0⟩ := by
        simp [route, h1, h2]
      refine ⟨?_, ?_, ?_, ?_, rfl⟩
      · rw [hroute]
        constructor
        · rintro ⟨ha, -⟩
          exact absurd ha (by decide)
        · rintro (h | h)
          · exact absurd h h1
          · exact absurd h h2
      · rw [hroute]
        constructor
        · intro h
          exact absurd h (by decide)
        · intro h
          exact absurd h h2
      · rw [hroute]
        constructor
        · rintro - (h | h)
          · exact absurd h h1
          · exact absurd h h2
        · intro _
          rfl
      · intro _
        rw [hroute]

theorem c10_witness :
    (route "GET /other HTTP/1.1").status_line = "HTTP/1.1 404 NOT FOUND" ∧
    (route "GET /other HTTP/1.1").filename = "404.html" ∧
    (route "GET /sleep HTTP/1.1").sleep_secs = 5 := by
  have h := c10_route_and_response (fun _ => "") "GET /other HTTP/1.1"
  have hs := c10_route_and_response (fun _ => "") "GET /sleep HTTP/1.1"
  have h404 : (route "GET /other HTTP/1.1").status_line = "HTTP/1.1 404 NOT FOUND" :=
    h.2.2.1.mpr (by decide)
  exact ⟨h404, h.2.2.2.1 h404, hs.2.1.mpr rfl⟩

end RustBook
